import Mathlib

/-
Verification development for the APML parsing/editing engine of libabbs.

The data model and the rendering functions are translated from
src/libabbs/src/apml/ast.rs.  The editor operations are translated from
src/libabbs/src/apml/editor.rs.  The LST tokenizer (lst.rs) and the
semantic AST layer (emit_from / lower) are not part of the provided
sources; where they are needed they are modelled from the specification
and marked as such in their doc comments.

All machine integers of the source (usize) are modelled as Nat with
release-profile (wrapping) semantics for subtraction: a wrapped-around
index is astronomically larger than any token sequence, so `Vec::get`
returns `None` there; this is encoded by explicit lower-bound guards.
Operations that can panic (Vec::drain with an out-of-range bound) are
modelled as Option-valued, `none` standing for the panic.
-/

namespace Apml

/- ===== Data model, from src/libabbs/src/apml/ast.rs ===== -/

/-- A element of literal words (`LiteralPart` in ast.rs). -/
inductive LiteralPart where
  /-- A string (`"<text>"`). -/
  | String (text : String)
  /-- An escaped character (`"\<char>"`). -/
  | Escaped (ch : Char)
  /-- A tag for discard newlines (`"\\\n"`). -/
  | LineContinuation
  deriving Repr, DecidableEq

/-- A element of glob patterns (`GlobPart` in ast.rs). -/
inductive GlobPart where
  /-- Matches a fixed string. -/
  | String (text : String)
  /-- Matches an escaped character. -/
  | Escaped (ch : Char)
  /-- Matches any string (`*`). -/
  | AnyString
  /-- Matches any single character (`?`). -/
  | AnyChar
  /-- Matches a characters range (`"[<range>]"`). -/
  | Range (range : String)
  deriving Repr, DecidableEq

/-- A glob pattern (`GlobPattern` in ast.rs); the `Rc` sharing of the
source is value-irrelevant and dropped. -/
structure GlobPattern where
  parts : List GlobPart
  deriving Repr, DecidableEq

mutual
/-- A section of text (`Text` in ast.rs): a list of text units. -/
inductive Text where
  | mk (units : List TextUnit)

/-- A unit of text (`TextUnit` in ast.rs).  The misspelled constructor
`DuobleQuote` is kept as in the source. -/
inductive TextUnit where
  | Unquoted (words : List Word)
  | SingleQuote (text : String)
  | DuobleQuote (words : List Word)

/-- A word, part of a text unit (`Word` in ast.rs). -/
inductive Word where
  | Literal (parts : List LiteralPart)
  | UnbracedVariable (name : String)
  | BracedVariable (exp : BracedExpansion)

/-- A braced variable expansion (`BracedExpansion` in ast.rs). -/
inductive BracedExpansion where
  | mk (name : String) (modifier : Option ExpansionModifier)

/-- A modifier in the braced variable expansion (`ExpansionModifier` in
ast.rs).  The constructors whose Rust names end in `Prefix` are named
with `Pfx` here; everything else keeps the source's name.  `Rc` sharing
is value-irrelevant and dropped. -/
inductive ExpansionModifier where
  | Substring (offset : Nat) (length : Option Nat)
  | StripShortestPfx (pattern : GlobPattern)
  | StripLongestPfx (pattern : GlobPattern)
  | StripShortestSuffix (pattern : GlobPattern)
  | StripLongestSuffix (pattern : GlobPattern)
  | ReplaceOnce (pattern : GlobPattern) (string : Text)
  | ReplaceAll (pattern : GlobPattern) (string : Text)
  | ReplacePfx (pattern : GlobPattern) (string : Text)
  | ReplaceSuffix (pattern : GlobPattern) (string : Text)
  | UpperOnce (pattern : GlobPattern)
  | UpperAll (pattern : GlobPattern)
  | LowerOnce (pattern : GlobPattern)
  | LowerAll (pattern : GlobPattern)
  | ErrorOnUnset (string : Text)
  | Length
  | WhenUnset (string : Text)
  | WhenSet (string : Text)
end

/-- Value of a variable (`VariableValue` in ast.rs). -/
inductive VariableValue where
  | String (text : Text)

/-- A variable definition (`VariableDefinition` in ast.rs): `"<name>=<value>"`.
The missing lst.rs additionally stores an assignment operator
(`VariableOp::Assignment`, the only variant, rendered `"="`); ast.rs
renders the `"="` directly, so the two representations coincide and the
operator field is omitted. -/
structure VariableDefinition where
  name : String
  value : VariableValue

/-- A token in the lossless tree (`Token` in ast.rs; same four variants as
the spec gives for lst.rs tokens). -/
inductive Token where
  /-- A space character. -/
  | Space
  /-- A newline character. -/
  | Newline
  /-- A comment (`"#<text>"`). -/
  | Comment (text : String)
  /-- A variable definition. -/
  | Variable (definition : VariableDefinition)

/- ===== Rendering (the ToString impls of ast.rs) ===== -/

/-- Implements `LiteralPart::to_string`. -/
def literalPartToString : LiteralPart → String
  | .String text => text
  | .Escaped ch => "\\" ++ ch.toString
  | .LineContinuation => "\\\n"

/-- Implements `GlobPart::to_string`. -/
def globPartToString : GlobPart → String
  | .String text => text
  | .Escaped ch => "\\" ++ ch.toString
  | .AnyString => "*"
  | .AnyChar => "?"
  | .Range range => "[" ++ range ++ "]"

/-- Implements `GlobPattern::to_string`: join of the parts' renderings. -/
def globPatternToString (p : GlobPattern) : String :=
  String.join (p.parts.map globPartToString)

mutual
/-- Implements `Text::to_string`: join of the units' renderings. -/
def textToString : Text → String
  | .mk units => textUnitListToString units

/-- Rendering of a list of text units (the `map`/`join` of `Text::to_string`). -/
def textUnitListToString : List TextUnit → String
  | [] => ""
  | u :: us => textUnitToString u ++ textUnitListToString us

/-- Implements `TextUnit::to_string`.  Note that the `SingleQuote` arm renders the
raw text only, without the surrounding single quotes (ast.rs line 117),
while its own doc comment and the module doc demand byte-for-byte
correspondence with the source form `'<text>'`. -/
def textUnitToString : TextUnit → String
  | .Unquoted words => wordListToString words
  | .SingleQuote text => text
  | .DuobleQuote words => "\"" ++ wordListToString words ++ "\""

/-- Rendering of a list of words (the `map`/`join` of the callers). -/
def wordListToString : List Word → String
  | [] => ""
  | w :: ws => wordToString w ++ wordListToString ws

/-- Implements `Word::to_string`. -/
def wordToString : Word → String
  | .Literal parts => String.join (parts.map literalPartToString)
  | .UnbracedVariable name => "$" ++ name
  | .BracedVariable exp => "$\x7b" ++ bracedExpansionToString exp ++ "\x7d"

/-- Implements `BracedExpansion::to_string`: the `Length` modifier is rendered as
`"#<name>"` here; other modifiers are rendered after the name.  The
third arm can only see a non-`Length` modifier (match order), which is
why the source's call to `ExpansionModifier::to_string` cannot reach the
`unreachable!()` arm from here; `modifierRender` is its panic-free body. -/
def bracedExpansionToString : BracedExpansion → String
  | .mk name m =>
    match m with
    | some .Length => "#" ++ name
    | none => name
    | some modifier => name ++ modifierRender modifier

/-- The body of `ExpansionModifier::to_string` on the non-`Length`
constructors.  The `Length` arm is `unreachable!()` in the source; it is
given the junk value `""` here, and `ExpansionModifier.toStringPanics`
below models the actual (partial) function. -/
def modifierRender : ExpansionModifier → String
  | .Substring offset length =>
    match length with
    | none => ":" ++ toString offset
    | some l => ":" ++ toString offset ++ ":" ++ toString l
  | .StripShortestPfx pattern => "#" ++ globPatternToString pattern
  | .StripLongestPfx pattern => "##" ++ globPatternToString pattern
  | .StripShortestSuffix pattern => "%" ++ globPatternToString pattern
  | .StripLongestSuffix pattern => "%%" ++ globPatternToString pattern
  | .ReplaceOnce pattern string =>
    "/" ++ globPatternToString pattern ++ "/" ++ textToString string
  | .ReplaceAll pattern string =>
    "//" ++ globPatternToString pattern ++ "/" ++ textToString string
  | .ReplacePfx pattern string =>
    "/#" ++ globPatternToString pattern ++ "/" ++ textToString string
  | .ReplaceSuffix pattern string =>
    "/%" ++ globPatternToString pattern ++ "/" ++ textToString string
  | .UpperOnce pattern => "^" ++ globPatternToString pattern
  | .UpperAll pattern => "^^" ++ globPatternToString pattern
  | .LowerOnce pattern => "," ++ globPatternToString pattern
  | .LowerAll pattern => ",," ++ globPatternToString pattern
  | .ErrorOnUnset string => ":?" ++ textToString string
  | .Length => ""
  | .WhenUnset string => ":-" ++ textToString string
  | .WhenSet string => ":+" ++ textToString string
end

/-- Implements `ExpansionModifier::to_string` as it actually behaves: a partial
function that panics (`unreachable!()`, modelled as `none`) on
`Length` and returns the rendered modifier otherwise. -/
def ExpansionModifier.toStringPanics : ExpansionModifier → Option String
  | .Length => none
  | m => some (modifierRender m)

/-- Implements `VariableValue::to_string`. -/
def variableValueToString : VariableValue → String
  | .String text => textToString text

/-- Implements `VariableDefinition::to_string`: `"<name>=<value>"`. -/
def variableDefinitionToString (d : VariableDefinition) : String :=
  d.name ++ "=" ++ variableValueToString d.value

/-- Implements `Token::to_string`. -/
def Token.toString : Token → String
  | .Space => " "
  | .Newline => "\n"
  | .Comment text => "#" ++ text
  | .Variable d => variableDefinitionToString d

/-- Implements `ApmlAst::to_string` (ast.rs lines 13-21): the concatenation of the
textual rendering of every token, in order.  The token sequence is the
whole content of `ApmlAst`, so it is passed as a plain list. -/
def renderTokens (tokens : List Token) : String :=
  String.join (tokens.map Token.toString)

/- ===== Tokenizer, modelled from the spec (lst.rs is not under src/) ===== -/

/-- The single-quote character, kept behind a name so that the quote
character never appears as a literal in the file. -/
def sq : Char := Char.ofNat 39

/-- Character may continue a single-quoted unit: anything but the closing
quote or a newline (a quote left unterminated at end of line fails). -/
def notSQNL (ch : Char) : Bool := !(ch == sq) && !(ch == '\n')

/-- Character may continue a double-quoted unit. -/
def notDQNL (ch : Char) : Bool := !(ch == '"') && !(ch == '\n')

/-- Character may continue an unquoted run of a value. -/
def isPlainChar (c : Char) : Bool :=
  !(c == ' ' || c == '\n' || c == sq || c == '"')

/-- Character may be part of a variable name. -/
def nameChar (c : Char) : Bool :=
  !(c == '=' || c == ' ' || c == '\n' || c == '#' || c == sq || c == '"')

/-- Modelled from the spec: lst.rs (the LST tokenizer) is not under src/.
Spec section 4.1: a variable's value is parsed into quoting structure
only; expansion syntax is retained as raw text inside the appropriate
quote or unquoted unit.  This function consumes the value part of a line
and returns the parsed units plus the unconsumed remainder; it stops
before an unquoted space or newline, and fails (`none`) on a quote left
unterminated at end of input or line.  The fuel argument makes the
recursion structural; each step consumes at least one character, so
fuel = length of the input + 1 always suffices. -/
def parseValueF : Nat → List Char → Option (List TextUnit × List Char)
  | 0, _ => none
  | _ + 1, [] => some ([], [])
  | _ + 1, ' ' :: rest => some ([], ' ' :: rest)
  | _ + 1, '\n' :: rest => some ([], '\n' :: rest)
  | fuel + 1, c :: rest =>
    if c == sq then
      match rest.dropWhile notSQNL with
      | d :: rest2 =>
        if d == sq then
          match parseValueF fuel rest2 with
          | some (us, r) =>
            some (TextUnit.SingleQuote ⟨rest.takeWhile notSQNL⟩ :: us, r)
          | none => none
        else none
      | [] => none
    else if c == '"' then
      match rest.dropWhile notDQNL with
      | d :: rest2 =>
        if d == '"' then
          match parseValueF fuel rest2 with
          | some (us, r) =>
            some (TextUnit.DuobleQuote
              [Word.Literal [LiteralPart.String ⟨rest.takeWhile notDQNL⟩]] :: us, r)
          | none => none
        else none
      | [] => none
    else
      match parseValueF fuel ((c :: rest).dropWhile isPlainChar) with
      | some (us, r) =>
        some (TextUnit.Unquoted
          [Word.Literal [LiteralPart.String ⟨(c :: rest).takeWhile isPlainChar⟩]] :: us, r)
      | none => none

/-- Modelled from the spec: lst.rs (the LST tokenizer) is not under src/.
Spec section 4.1: scan left to right; a run of spaces yields `Space`
tokens, a newline yields `Newline`, `#` yields a `Comment` holding
everything up to (not including) the newline, and a `name=value` line
yields a `Variable` whose value is parsed into quoting structure.  Any
other shape fails.  Fuel as in `parseValueF`. -/
def parseItemsF : Nat → List Char → Option (List Token)
  | 0, _ => none
  | _ + 1, [] => some []
  | fuel + 1, ' ' :: rest => (parseItemsF fuel rest).map (Token.Space :: ·)
  | fuel + 1, '\n' :: rest => (parseItemsF fuel rest).map (Token.Newline :: ·)
  | fuel + 1, '#' :: rest =>
    (parseItemsF fuel (rest.dropWhile fun ch => !(ch == '\n'))).map
      (Token.Comment ⟨rest.takeWhile fun ch => !(ch == '\n')⟩ :: ·)
  | fuel + 1, c :: rest =>
    if nameChar c then
      match (c :: rest).dropWhile nameChar with
      | '=' :: rest2 =>
        match parseValueF (rest2.length + 1) rest2 with
        | some (units, r) =>
          (parseItemsF fuel r).map
            (Token.Variable ⟨⟨(c :: rest).takeWhile nameChar⟩,
              VariableValue.String (Text.mk units)⟩ :: ·)
        | none => none
      | _ => none
    else none

/-- Modelled from the spec: `ApmlLst::parse` of the missing lst.rs. -/
def parseLst (s : String) : Option (List Token) :=
  parseItemsF (s.data.length + 1) s.data

/- ===== Editor, from src/libabbs/src/apml/editor.rs ===== -/

/-- Implements `matches!(token, Token::Newline)`. -/
def Token.isNewline : Token → Bool
  | .Newline => true
  | _ => false

/-- Implements `matches!(token, Token::Variable(_))`. -/
def Token.isVariable : Token → Bool
  | .Variable _ => true
  | _ => false

/-- Implements `ApmlEditor::lst_variables`: all variable definitions, in order. -/
def lstVariables (tokens : List Token) : List VariableDefinition :=
  tokens.filterMap fun t =>
    match t with
    | .Variable v => some v
    | _ => none

/-- Implements `ApmlEditor::keys`: variable names in document order. -/
def keys (tokens : List Token) : List String :=
  (lstVariables tokens).map VariableDefinition.name

/-- The scan of `ApmlEditor::find_var`, carrying the running index of
`zip(0..)`: a `Variable` token whose name matches stops the scan, any
other token continues it (the source's `if let Variable(var) = token`
inside `find_map`, written with one arm per non-matching constructor so
that every equation is unconditional). -/
def findVarAux : List Token → Nat → String → Option (Nat × VariableDefinition)
  | [], _, _ => none
  | .Variable v :: rest, i, n =>
    if v.name = n then some (i, v) else findVarAux rest (i + 1) n
  | .Space :: rest, i, n => findVarAux rest (i + 1) n
  | .Newline :: rest, i, n => findVarAux rest (i + 1) n
  | .Comment _ :: rest, i, n => findVarAux rest (i + 1) n

/-- Implements `ApmlEditor::find_var`: the first (lowest-index) variable token whose
name matches, with its index. -/
def findVar (tokens : List Token) (name : String) :
    Option (Nat × VariableDefinition) :=
  findVarAux tokens 0 name

/-- Implements `ApmlEditor::ensure_end_newline`: push a newline unless the sequence
is empty or already ends with one. -/
def ensureEndNewline (tokens : List Token) : List Token :=
  match tokens.getLast? with
  | none => tokens
  | some .Newline => tokens
  | some _ => tokens ++ [Token.Newline]

/-- Modelled from the spec: the semantic AST layer (the `ast` module with
`VariableValue` and its infallible `lower`) is not under src/; only its
use sites in editor.rs remain.  The editor tests construct
`ast::VariableValue::String("a".into())`, so the `String` variant wraps
plain text. -/
inductive AstVariableValue where
  | String (text : String)

/-- Modelled from the spec: `lower` serializes an AST value into the
minimal lossless form in canonical style — string values are always
emitted inside double quotes (spec section 4.2; the editor tests render
`append_var("c", String("a"), _)` as `c="a"`). -/
def AstVariableValue.lower : AstVariableValue → VariableValue
  | .String s =>
    VariableValue.String
      (Text.mk [TextUnit.DuobleQuote [Word.Literal [LiteralPart.String s]]])

/-- The `lst::VariableDefinition { name, op: Assignment, value: value.lower() }`
token built by `append_var_ast` and `replace_var_ast` (the assignment
operator is the only `VariableOp` variant and renders as the `"="` that
`VariableDefinition::to_string` emits). -/
def mkVarToken (name : String) (value : AstVariableValue) : Token :=
  Token.Variable ⟨name, value.lower⟩

/-- Implements `iter().skip(index).take_while(|t| !matches!(t, Newline)).count()`:
the number of tokens from `index` up to (excluding) the next newline. -/
def lineLen (tokens : List Token) (index : Nat) : Nat :=
  ((tokens.drop index).takeWhile fun t => !t.isNewline).length

/-- Implements `Vec::insert(i, x)` for `i ≤ len`. -/
def insertAt (l : List Token) (i : Nat) (x : Token) : List Token :=
  l.take i ++ x :: l.drop i

/-- Implements `ApmlEditor::append_var_ast` (editor.rs lines 108-138).  The source
inserts a `Newline` at `i` and then the variable token at `i`; both
paths that do not insert fall through to
`ensure_end_newline(); push(token); push(Newline)`. -/
def appendVarAst (tokens : List Token) (name : String)
    (value : AstVariableValue) (after : Option String) : List Token :=
  let token := mkVarToken name value
  match after with
  | some a =>
    match findVar tokens a with
    | some (index, _) =>
      let cnt := lineLen tokens index
      let i := index + cnt + 1
      if i ≤ tokens.length then
        insertAt (insertAt tokens i Token.Newline) i token
      else
        ensureEndNewline tokens ++ [token, Token.Newline]
    | none => ensureEndNewline tokens ++ [token, Token.Newline]
  | none => ensureEndNewline tokens ++ [token, Token.Newline]

/-- Implements `ApmlEditor::replace_var_ast` (editor.rs lines 141-159). -/
def replaceVarAst (tokens : List Token) (name : String)
    (value : AstVariableValue) : List Token :=
  let token := mkVarToken name value
  match findVar tokens name with
  | some (index, _) => tokens.set index token
  | none => ensureEndNewline tokens ++ [token, Token.Newline]

/-- Implements `matches!(tokens.get i, Some(Token::Comment(_)))`. -/
def isCommentTok : Option Token → Bool
  | some (.Comment _) => true
  | _ => false

/-- Implements `matches!(tokens.get i, Some(Token::Newline))`. -/
def isNewlineTok : Option Token → Bool
  | some .Newline => true
  | _ => false

/-- The next-line scan of `remove_var`:
`iter().skip(index).skip_while(!Newline).skip(1).take_while(!Newline).any(Variable)`. -/
def nextLineHasVar (tokens : List Token) (index : Nat) : Bool :=
  ((((tokens.drop index).dropWhile fun t => !t.isNewline).drop 1).takeWhile
    fun t => !t.isNewline).any Token.isVariable

/-- The backward comment scan of `remove_var`: while the tokens at
`start-1`, `start-2`, `start-3` are Newline, Comment, Newline, step
`start` back by 2.  The `3 ≤ start` guard encodes the wrapping usize
subtraction: for `start < 3` one of the subtractions wraps around and
`Vec::get` of the wrapped index returns `None`, ending the loop (under
debug-profile overflow checks the subtraction itself would panic
instead).  Fuel as elsewhere; `start` itself always suffices since every
iteration decreases it by 2. -/
def stripScanF : Nat → List Token → Nat → Nat
  | 0, _, start => start
  | fuel + 1, tokens, start =>
    if decide (3 ≤ start) && isNewlineTok tokens[start - 1]? &&
        isCommentTok tokens[start - 2]? && isNewlineTok tokens[start - 3]? then
      stripScanF fuel tokens (start - 2)
    else start

/-- The backward comment scan of `remove_var`, starting at the removed
variable's index. -/
def stripScan (tokens : List Token) (start : Nat) : Nat :=
  stripScanF start tokens start

/-- The condition under which `remove_var` runs the backward comment
scan: the token two before the variable is a comment (the `2 ≤ index`
guard encodes the wrapping usize subtraction as in `stripScanF`) and the
line after the variable's newline holds no variable token. -/
def docCommentCase (tokens : List Token) (index : Nat) : Bool :=
  (decide (2 ≤ index) && isCommentTok tokens[index - 2]?) &&
    !(nextLineHasVar tokens index)

/-- Implements `ApmlEditor::remove_var` (editor.rs lines 170-203).  The final
`drain(start..=(index + after))` panics when its exclusive end bound
`index + after + 1` exceeds the vector length (which happens exactly
when no newline token follows `index`); the panic is modelled as
`none`. -/
def removeVar (tokens : List Token) (index : Nat) : Option (List Token) :=
  if index + lineLen tokens index + 1 ≤ tokens.length then
    some (tokens.take
        (if docCommentCase tokens index then stripScan tokens index else index) ++
      tokens.drop (index + lineLen tokens index + 1))
  else
    none

/-- Implements `ApmlEditor::comments`: the text of every comment token, in order. -/
def commentsOf (tokens : List Token) : List String :=
  tokens.filterMap fun t =>
    match t with
    | .Comment c => some c
    | _ => none

/- ===== Concrete documents used by the claims' examples ===== -/

/-- The token of `a=b`. -/
def defA : VariableDefinition :=
  ⟨"a", VariableValue.String (Text.mk [TextUnit.Unquoted [Word.Literal [LiteralPart.String "b"]]])⟩

/-- The token of `b=c`. -/
def defB : VariableDefinition :=
  ⟨"b", VariableValue.String (Text.mk [TextUnit.Unquoted [Word.Literal [LiteralPart.String "c"]]])⟩

/-- The token of `c="$1"`. -/
def defC1 : VariableDefinition :=
  ⟨"c", VariableValue.String (Text.mk [TextUnit.DuobleQuote [Word.Literal [LiteralPart.String "$1"]]])⟩

/-- The token of `c=d`. -/
def defCD : VariableDefinition :=
  ⟨"c", VariableValue.String (Text.mk [TextUnit.Unquoted [Word.Literal [LiteralPart.String "d"]]])⟩

/-- The LST of `"a=b\nb=c"`. -/
def ex2Tokens : List Token :=
  [Token.Variable defA, Token.Newline, Token.Variable defB]

/-- The LST of `"a=b\nb=c\nc=\"$1\""`. -/
def ex3Tokens : List Token :=
  [Token.Variable defA, Token.Newline, Token.Variable defB, Token.Newline,
    Token.Variable defC1]

/-- The LST of `"a=b\nb=c\n\nc=\"$1\""`. -/
def ex4Tokens : List Token :=
  [Token.Variable defA, Token.Newline, Token.Variable defB, Token.Newline,
    Token.Newline, Token.Variable defC1]

/-- The LST of `"a=b # a\n# b\n# c\nb=c\n\n# a\nc=\"$1\""`. -/
def bigTokens : List Token :=
  [Token.Variable defA, Token.Space, Token.Comment " a", Token.Newline,
    Token.Comment " b", Token.Newline, Token.Comment " c", Token.Newline,
    Token.Variable defB, Token.Newline, Token.Newline, Token.Comment " a",
    Token.Newline, Token.Variable defC1]

/-- The LST of `"# c\nb=c\n"` (a comment-only first line). -/
def startCommentTokens : List Token :=
  [Token.Comment " c", Token.Newline, Token.Variable defB, Token.Newline]

/-- The LST of `"c=d"` (a single variable, no trailing newline). -/
def cdTokens : List Token := [Token.Variable defCD]

/-- The input `a='b'`, built from characters so that the quote character
never appears literally in the file. -/
def sqInput : String := ⟨['a', '=', sq, 'b', sq]⟩

/-- The LST that `sqInput` parses to: one variable whose value is a
single-quoted unit. -/
def sqTokens : List Token :=
  [Token.Variable ⟨"a", VariableValue.String (Text.mk [TextUnit.SingleQuote "b"])⟩]

/- ===== Helper lemmas ===== -/

theorem stripScanF_le (fuel : Nat) : ∀ tokens start, stripScanF fuel tokens start ≤ start := by
  induction fuel with
  | zero => intro tokens start; simp [stripScanF]
  | succ f ih =>
    intro tokens start
    rw [stripScanF]
    split
    · exact le_trans (ih tokens (start - 2)) (Nat.sub_le start 2)
    · exact le_refl start

theorem stripScan_le (tokens : List Token) (start : Nat) :
    stripScan tokens start ≤ start :=
  stripScanF_le start tokens start

theorem insertAt_insertAt (tokens : List Token) (i : Nat) (h : i ≤ tokens.length)
    (x y : Token) :
    insertAt (insertAt tokens i y) i x =
      tokens.take i ++ x :: y :: tokens.drop i := by
  unfold insertAt
  have hl : (tokens.take i).length = i := by
    rw [List.length_take]; omega
  rw [List.take_left' hl, List.drop_left' hl]

theorem findVarAux_skip_spec (n : String) (rest : List Token) (t : Token)
    (hnot : ∀ v, t ≠ Token.Variable v)
    (ih : ∀ (i j : Nat) (d : VariableDefinition),
      findVarAux rest i n = some (j, d) →
      i ≤ j ∧ rest[j - i]? = some (Token.Variable d) ∧ d.name = n ∧
        ∀ m, m < j - i → ∀ d', rest[m]? = some (Token.Variable d') → d'.name ≠ n)
    (i j : Nat) (d : VariableDefinition)
    (h : findVarAux rest (i + 1) n = some (j, d)) :
    i ≤ j ∧ (t :: rest)[j - i]? = some (Token.Variable d) ∧ d.name = n ∧
      ∀ m, m < j - i → ∀ d',
        (t :: rest)[m]? = some (Token.Variable d') → d'.name ≠ n := by
  obtain ⟨hij, hget, hname, hmin⟩ := ih (i + 1) j d h
  refine ⟨by omega, ?_, hname, ?_⟩
  · have he : j - i = (j - (i + 1)) + 1 := by omega
    rw [he, List.getElem?_cons_succ]
    exact hget
  · intro m hm d' hd'
    cases m with
    | zero =>
      rw [List.getElem?_cons_zero] at hd'
      exact absurd (Option.some.inj hd') (hnot d')
    | succ m' =>
      rw [List.getElem?_cons_succ] at hd'
      exact hmin m' (by omega) d' hd'

theorem findVarAux_some_spec (n : String) :
    ∀ (l : List Token) (i j : Nat) (d : VariableDefinition),
      findVarAux l i n = some (j, d) →
      i ≤ j ∧ l[j - i]? = some (Token.Variable d) ∧ d.name = n ∧
        ∀ m, m < j - i → ∀ d', l[m]? = some (Token.Variable d') → d'.name ≠ n := by
  intro l
  induction l with
  | nil => intro i j d h; simp [findVarAux] at h
  | cons t rest ih =>
    intro i j d h
    cases t with
    | Variable v =>
      rw [findVarAux] at h
      split at h
      case isTrue hv =>
        simp only [Option.some.injEq, Prod.mk.injEq] at h
        obtain ⟨rfl, rfl⟩ := h
        refine ⟨le_refl i, ?_, hv, ?_⟩
        · simp
        · intro m hm; omega
      case isFalse hv =>
        obtain ⟨hij, hget, hname, hmin⟩ := ih (i + 1) j d h
        refine ⟨by omega, ?_, hname, ?_⟩
        · have he : j - i = (j - (i + 1)) + 1 := by omega
          rw [he, List.getElem?_cons_succ]
          exact hget
        · intro m hm d' hd'
          cases m with
          | zero =>
            rw [List.getElem?_cons_zero] at hd'
            simp only [Option.some.injEq, Token.Variable.injEq] at hd'
            subst hd'
            exact hv
          | succ m' =>
            rw [List.getElem?_cons_succ] at hd'
            exact hmin m' (by omega) d' hd'
    | Space =>
      exact findVarAux_skip_spec n rest Token.Space (by intro v hv; cases hv)
        ih i j d h
    | Newline =>
      exact findVarAux_skip_spec n rest Token.Newline (by intro v hv; cases hv)
        ih i j d h
    | Comment c =>
      exact findVarAux_skip_spec n rest (Token.Comment c) (by intro v hv; cases hv)
        ih i j d h

theorem findVarAux_skip_none (n : String) (rest : List Token) (t : Token)
    (hnot : ∀ v, t ≠ Token.Variable v)
    (ih : ∀ i, findVarAux rest i n = none ↔
      ∀ (m : Nat) (d' : VariableDefinition), rest[m]? = some (Token.Variable d') → d'.name ≠ n)
    (i : Nat) :
    findVarAux rest (i + 1) n = none ↔
      ∀ (m : Nat) (d' : VariableDefinition), (t :: rest)[m]? = some (Token.Variable d') → d'.name ≠ n := by
  rw [ih (i + 1)]
  constructor
  · intro H m d' hd'
    cases m with
    | zero =>
      rw [List.getElem?_cons_zero] at hd'
      exact absurd (Option.some.inj hd') (hnot d')
    | succ m' =>
      rw [List.getElem?_cons_succ] at hd'
      exact H m' d' hd'
  · intro H m d' hd'
    refine H (m + 1) d' ?_
    rw [List.getElem?_cons_succ]
    exact hd'

theorem findVarAux_none_iff (n : String) :
    ∀ (l : List Token) (i : Nat),
      findVarAux l i n = none ↔
        ∀ (m : Nat) (d' : VariableDefinition), l[m]? = some (Token.Variable d') → d'.name ≠ n := by
  intro l
  induction l with
  | nil => intro i; simp [findVarAux]
  | cons t rest ih =>
    intro i
    cases t with
    | Variable v =>
      rw [findVarAux]
      split
      case isTrue hv =>
        refine iff_of_false (by simp) ?_
        intro H
        exact absurd hv (H 0 v (by simp))
      case isFalse hv =>
        rw [ih (i + 1)]
        constructor
        · intro H m d' hd'
          cases m with
          | zero =>
            rw [List.getElem?_cons_zero] at hd'
            simp only [Option.some.injEq, Token.Variable.injEq] at hd'
            subst hd'
            exact hv
          | succ m' =>
            rw [List.getElem?_cons_succ] at hd'
            exact H m' d' hd'
        · intro H m d' hd'
          refine H (m + 1) d' ?_
          rw [List.getElem?_cons_succ]
          exact hd'
    | Space =>
      exact findVarAux_skip_none n rest Token.Space (by intro v hv; cases hv) ih i
    | Newline =>
      exact findVarAux_skip_none n rest Token.Newline (by intro v hv; cases hv) ih i
    | Comment c =>
      exact findVarAux_skip_none n rest (Token.Comment c) (by intro v hv; cases hv)
        ih i

theorem findVar_some_spec (tokens : List Token) (name : String) (i : Nat)
    (d : VariableDefinition) (h : findVar tokens name = some (i, d)) :
    tokens[i]? = some (Token.Variable d) ∧ d.name = name ∧
      ∀ j, j < i → ∀ d', tokens[j]? = some (Token.Variable d') → d'.name ≠ name := by
  obtain ⟨_, hget, hname, hmin⟩ := findVarAux_some_spec name tokens 0 i d h
  simp only [Nat.sub_zero] at hget hmin
  exact ⟨hget, hname, fun j hj => hmin j hj⟩

theorem findVar_none_iff (tokens : List Token) (name : String) :
    findVar tokens name = none ↔
      ∀ (j : Nat) (d' : VariableDefinition), tokens[j]? = some (Token.Variable d') → d'.name ≠ name :=
  findVarAux_none_iff name tokens 0

/- ===== Claim theorems ===== -/

/-- C1: the LST round-trip invariant fails on the input `a='b'`: the
input parses successfully, but rendering the resulting LST yields `a=b`
— `TextUnit::SingleQuote`'s `to_string` arm (ast.rs line 117) drops the
surrounding single quotes, contradicting the claimed byte-for-byte
reproduction. -/
theorem c1_lst_roundtrip_broken :
    parseLst sqInput = some sqTokens ∧
    renderTokens sqTokens = "a=b" ∧
    renderTokens sqTokens ≠ sqInput :=
  ⟨rfl, rfl, by decide⟩

/-- C2: `remove_var` is not infallible: on the LST of `"a=b\nb=c"`, index 2
designates the variable token `b` (the stated precondition holds), yet
`remove_var(2)` drains `2..=3` from a 3-token vector — the exclusive end
bound 4 exceeds the length, so `Vec::drain` panics (modelled as `none`). -/
theorem c2_remove_var_panics :
    parseLst "a=b\nb=c" = some ex2Tokens ∧
    ex2Tokens[2]? = some (Token.Variable defB) ∧
    removeVar ex2Tokens 2 = none :=
  ⟨rfl, rfl, rfl⟩

/-- C4 counterexample: on `"# c\nb=c\n"` the line preceding `b` consists
solely of a comment line and the line following `b` holds no variable
definition, so the claim says the comment line is removed together with
`b`; the code leaves it in place (the backward scan needs a `Newline`
before the comment, which a comment on the document's first line lacks),
rendering `"# c\n"` instead of the empty document. -/
theorem c4_counterexample :
    parseLst "# c\nb=c\n" = some startCommentTokens ∧
    startCommentTokens[2]? = some (Token.Variable defB) ∧
    removeVar startCommentTokens 2 = some [Token.Comment " c", Token.Newline] ∧
    renderTokens [Token.Comment " c", Token.Newline] = "# c\n" :=
  ⟨rfl, rfl, rfl, rfl⟩

/-- C4 (amended): comment stripping of `remove_var`.  (1) On the claim's
example document, removing `b` (index 8) yields exactly the claimed
output.  (2) When the documentation-comment condition does not hold,
no token before the variable is removed.  (3) The backward scan moves
only when the tokens directly before the variable are
Newline, Comment, Newline — so a comment on the document's first line
(or one preceded by anything but a bare newline) is never stripped. -/
theorem c4_remove_var_comment_stripping :
    (parseLst "a=b # a\n# b\n# c\nb=c\n\n# a\nc=\"$1\"" = some bigTokens ∧
     (findVar bigTokens "b").map Prod.fst = some 8 ∧
     (removeVar bigTokens 8).map renderTokens = some "a=b # a\n\n# a\nc=\"$1\"") ∧
    (∀ (tokens : List Token) (index : Nat),
      docCommentCase tokens index = false →
      ∀ r, removeVar tokens index = some r →
        r = tokens.take index ++ tokens.drop (index + lineLen tokens index + 1)) ∧
    (∀ (tokens : List Token) (index : Nat),
      stripScan tokens index = index ∨
      (3 ≤ index ∧ isNewlineTok tokens[index - 1]? = true ∧
       isCommentTok tokens[index - 2]? = true ∧
       isNewlineTok tokens[index - 3]? = true)) := by
  refine ⟨⟨rfl, rfl, rfl⟩, ?_, ?_⟩
  · intro tokens index h r hr
    simp only [removeVar, h, Bool.false_eq_true, if_false] at hr
    split at hr
    · exact (Option.some.inj hr).symm
    · cases hr
  · intro tokens index
    unfold stripScan
    cases index with
    | zero => left; rfl
    | succ k =>
      rw [stripScanF]
      split
      case isTrue hcond =>
        right
        simp only [Bool.and_eq_true, decide_eq_true_eq] at hcond
        exact ⟨hcond.1.1.1, hcond.1.1.2, hcond.1.2, hcond.2⟩
      case isFalse _ => left; rfl

/-- C4 witness: instantiating the frame part on the document
`"a=b\nb=c\n\nc=\"$1\""` at the variable `b` (index 2), where the
documentation-comment condition is false. -/
theorem c4_remove_var_comment_stripping_witness :
    removeVar ex4Tokens 2 =
      some (ex4Tokens.take 2 ++ ex4Tokens.drop (2 + lineLen ex4Tokens 2 + 1)) := by
  have h := c4_remove_var_comment_stripping.2.1 ex4Tokens 2 rfl
    (ex4Tokens.take 2 ++ ex4Tokens.drop 4) rfl
  rw [← h]
  rfl

/-- C5 counterexample: on the single-line document `"c=d"` (no trailing
newline) index 0 designates a variable token, yet `remove_var(0)` panics
(modelled as `none`) instead of removing the variable's line span, because
no newline token follows the variable and the drain bound overruns. -/
theorem c5_counterexample :
    parseLst "c=d" = some cdTokens ∧
    cdTokens[0]? = some (Token.Variable defCD) ∧
    removeVar cdTokens 0 = none :=
  ⟨rfl, rfl, rfl⟩

/-- C5 (amended): provided a newline token follows the variable at
`index` (at offset `lineLen`, the length of the run of non-newline
tokens starting at `index`), `remove_var` removes the tokens from some
start `s ≤ index` through that newline inclusive, leaving everything
after the newline unchanged; and absent the documentation-comment case,
`s = index`, so all earlier tokens are unchanged as well. -/
theorem c5_remove_var_span (tokens : List Token) (index : Nat)
    (d : VariableDefinition)
    (_hvar : tokens[index]? = some (Token.Variable d))
    (hnl : tokens[index + lineLen tokens index]? = some Token.Newline) :
    ∃ s, s ≤ index ∧
      removeVar tokens index =
        some (tokens.take s ++ tokens.drop (index + lineLen tokens index + 1)) ∧
      (docCommentCase tokens index = false → s = index) := by
  have hlt : index + lineLen tokens index < tokens.length := by
    by_contra hge
    rw [List.getElem?_eq_none (by omega)] at hnl
    cases hnl
  refine ⟨if docCommentCase tokens index then stripScan tokens index else index,
    ?_, ?_, ?_⟩
  · split
    · exact stripScan_le tokens index
    · exact le_refl index
  · simp only [removeVar]
    rw [if_pos (by omega)]
  · intro h
    rw [h]
    simp

/-- C5 witness: the claim's example `"a=b\nb=c\n\nc=\"$1\""`, removing
`b` at index 2. -/
theorem c5_remove_var_span_witness :
    ∃ s, s ≤ 2 ∧
      removeVar ex4Tokens 2 =
        some (ex4Tokens.take s ++ ex4Tokens.drop (2 + lineLen ex4Tokens 2 + 1)) := by
  obtain ⟨s, hs, heq, -⟩ := c5_remove_var_span ex4Tokens 2 defB rfl rfl
  exact ⟨s, hs, heq⟩

/-- C6: placement of `append_var`.  (1) If `after` names an existing
variable (lowest index `index`) whose line is terminated by a newline
token (at offset `lineLen`), the new variable token plus a newline is
inserted immediately after that newline, before the next token.  (2/3)
If `after` is absent, or names no existing variable, the document first
gets a terminating newline ensured and the new variable plus a newline
is appended at the end.  (4/5) The claim's two concrete examples. -/
theorem c6_append_var_placement (tokens : List Token) (name : String)
    (value : AstVariableValue) :
    (∀ (a : String) (index : Nat) (d : VariableDefinition),
      findVar tokens a = some (index, d) →
      tokens[index + lineLen tokens index]? = some Token.Newline →
      appendVarAst tokens name value (some a) =
        tokens.take (index + lineLen tokens index + 1) ++
          mkVarToken name value :: Token.Newline ::
            tokens.drop (index + lineLen tokens index + 1)) ∧
    (appendVarAst tokens name value none =
      ensureEndNewline tokens ++ [mkVarToken name value, Token.Newline]) ∧
    (∀ a : String, findVar tokens a = none →
      appendVarAst tokens name value (some a) =
        ensureEndNewline tokens ++ [mkVarToken name value, Token.Newline]) ∧
    ((parseLst "a=b\nb=c").map
        (fun ts => renderTokens (appendVarAst ts "c" (AstVariableValue.String "a") none)) =
      some "a=b\nb=c\nc=\"a\"\n") ∧
    ((parseLst "a=b\nb=c").map
        (fun ts => renderTokens (appendVarAst ts "c" (AstVariableValue.String "a") (some "a"))) =
      some "a=b\nc=\"a\"\nb=c") := by
  refine ⟨?_, rfl, ?_, rfl, rfl⟩
  · intro a index d hfind hnl
    have hlt : index + lineLen tokens index < tokens.length := by
      by_contra hge
      rw [List.getElem?_eq_none (by omega)] at hnl
      cases hnl
    simp only [appendVarAst, hfind]
    rw [if_pos (by omega)]
    exact insertAt_insertAt tokens (index + lineLen tokens index + 1) (by omega) _ _
  · intro a h
    simp only [appendVarAst, h]

/-- C6 witness: inserting `c="a"` after `a` in `"a=b\nb=c"` places it
directly after `a`'s terminating newline (position 2). -/
theorem c6_append_var_placement_witness :
    appendVarAst ex2Tokens "c" (AstVariableValue.String "a") (some "a") =
      ex2Tokens.take 2 ++ mkVarToken "c" (AstVariableValue.String "a") ::
        Token.Newline :: ex2Tokens.drop 2 :=
  (c6_append_var_placement ex2Tokens "c" (AstVariableValue.String "a")).1
    "a" 0 defA rfl rfl

/-- C7: `replace_var` frame.  If a variable with the name exists,
`find_var` hands back the lowest matching index `i`, only the token at
`i` is replaced (`List.set`), and every other position is untouched;
otherwise the operation coincides with `append_var(name, value, None)`.
Plus the claim's two concrete examples. -/
theorem c7_replace_var_frame (tokens : List Token) (name : String)
    (value : AstVariableValue) :
    (∀ (i : Nat) (d : VariableDefinition), findVar tokens name = some (i, d) →
      tokens[i]? = some (Token.Variable d) ∧ d.name = name ∧
      (∀ j, j < i → ∀ d', tokens[j]? = some (Token.Variable d') → d'.name ≠ name) ∧
      replaceVarAst tokens name value = tokens.set i (mkVarToken name value) ∧
      ∀ j : Nat, j ≠ i → (replaceVarAst tokens name value)[j]? = tokens[j]?) ∧
    (findVar tokens name = none →
      replaceVarAst tokens name value = appendVarAst tokens name value none) ∧
    ((parseLst "a=b\nb=c").map
        (fun ts => renderTokens (replaceVarAst ts "c" (AstVariableValue.String "a"))) =
      some "a=b\nb=c\nc=\"a\"\n") ∧
    ((parseLst "a=b\nb=c").map
        (fun ts => renderTokens (replaceVarAst ts "a" (AstVariableValue.String "a"))) =
      some "a=\"a\"\nb=c") := by
  refine ⟨?_, ?_, rfl, rfl⟩
  · intro i d hfind
    obtain ⟨hget, hname, hmin⟩ := findVar_some_spec tokens name i d hfind
    have hset : replaceVarAst tokens name value = tokens.set i (mkVarToken name value) := by
      simp only [replaceVarAst, hfind]
    refine ⟨hget, hname, hmin, hset, ?_⟩
    intro j hj
    rw [hset]
    exact List.getElem?_set_ne (Ne.symm hj)
  · intro h
    simp only [replaceVarAst, appendVarAst, h]

/-- C7 witness: replacing the existing `a` in `"a=b\nb=c"` touches only
index 0. -/
theorem c7_replace_var_frame_witness :
    replaceVarAst ex2Tokens "a" (AstVariableValue.String "a") =
      ex2Tokens.set 0 (mkVarToken "a" (AstVariableValue.String "a")) :=
  ((c7_replace_var_frame ex2Tokens "a" (AstVariableValue.String "a")).1
    0 defA rfl).2.2.2.1

/-- C8: `find_var` returns the lowest-index `Variable` token with the
exact (case-sensitive) name together with its definition node, and
`none` exactly when no variable token carries the name; on
`"a=b\nb=c\nc=\"$1\""`: `a` is at index 0, `b` at index 2, and `A`
(different case) is absent. -/
theorem c8_find_var_lowest (tokens : List Token) (name : String) :
    (∀ (i : Nat) (d : VariableDefinition), findVar tokens name = some (i, d) →
      tokens[i]? = some (Token.Variable d) ∧ d.name = name ∧
      ∀ j, j < i → ∀ d', tokens[j]? = some (Token.Variable d') → d'.name ≠ name) ∧
    (findVar tokens name = none ↔
      ∀ (j : Nat) (d' : VariableDefinition),
        tokens[j]? = some (Token.Variable d') → d'.name ≠ name) ∧
    (parseLst "a=b\nb=c\nc=\"$1\"" = some ex3Tokens ∧
     findVar ex3Tokens "a" = some (0, defA) ∧
     findVar ex3Tokens "b" = some (2, defB) ∧
     findVar ex3Tokens "A" = none) :=
  ⟨fun i d h => findVar_some_spec tokens name i d h,
   findVar_none_iff tokens name, rfl, rfl, rfl, rfl⟩

/-- C8 witness: instantiating the characterization for `b` on the
example document. -/
theorem c8_find_var_lowest_witness :
    ex3Tokens[2]? = some (Token.Variable defB) ∧ defB.name = "b" := by
  have h := (c8_find_var_lowest ex3Tokens "b").1 2 defB rfl
  exact ⟨h.1, h.2.1⟩

/-- C9: `ensure_end_newline` leaves an empty or already
newline-terminated token sequence unchanged, otherwise appends exactly
one newline token; it is idempotent; and on `"a=b"` it produces
`"a=b\n"`. -/
theorem c9_ensure_end_newline (tokens : List Token) :
    (tokens = [] → ensureEndNewline tokens = tokens) ∧
    (tokens.getLast? = some Token.Newline → ensureEndNewline tokens = tokens) ∧
    (tokens ≠ [] → tokens.getLast? ≠ some Token.Newline →
      ensureEndNewline tokens = tokens ++ [Token.Newline]) ∧
    (ensureEndNewline (ensureEndNewline tokens) = ensureEndNewline tokens) ∧
    ((parseLst "a=b").map (fun ts => renderTokens (ensureEndNewline ts)) =
      some "a=b\n") := by
  refine ⟨?_, ?_, ?_, ?_, rfl⟩
  · intro h
    subst h
    rfl
  · intro h
    simp only [ensureEndNewline, h]
  · intro hne hnl
    cases ht : tokens.getLast? with
    | none => exact absurd (List.getLast?_eq_none_iff.mp ht) hne
    | some t =>
      cases t with
      | Newline => exact absurd ht hnl
      | Space => simp only [ensureEndNewline, ht]
      | Comment c => simp only [ensureEndNewline, ht]
      | Variable d => simp only [ensureEndNewline, ht]
  · cases ht : tokens.getLast? with
    | none =>
      have h : ensureEndNewline tokens = tokens := by
        simp only [ensureEndNewline, ht]
      rw [h]
      exact h
    | some t =>
      cases t with
      | Newline =>
        have h : ensureEndNewline tokens = tokens := by
          simp only [ensureEndNewline, ht]
        rw [h]
        exact h
      | Space =>
        have h : ensureEndNewline tokens = tokens ++ [Token.Newline] := by
          simp only [ensureEndNewline, ht]
        rw [h]
        simp only [ensureEndNewline, List.getLast?_concat]
      | Comment c =>
        have h : ensureEndNewline tokens = tokens ++ [Token.Newline] := by
          simp only [ensureEndNewline, ht]
        rw [h]
        simp only [ensureEndNewline, List.getLast?_concat]
      | Variable d =>
        have h : ensureEndNewline tokens = tokens ++ [Token.Newline] := by
          simp only [ensureEndNewline, ht]
        rw [h]
        simp only [ensureEndNewline, List.getLast?_concat]

/-- C9 witness: a single-variable document without a trailing newline
gets exactly one newline appended. -/
theorem c9_ensure_end_newline_witness :
    ensureEndNewline cdTokens = cdTokens ++ [Token.Newline] :=
  (c9_ensure_end_newline cdTokens).2.2.1 (by simp [cdTokens])
    (by simp [cdTokens])

/-- C10: a braced expansion whose modifier is `Length` renders as
dollar, open brace, hash, the name, close brace (through the special
case of `BracedExpansion::to_string`), while `ExpansionModifier::to_string` itself is partial: it
panics (`unreachable!()`, modelled as `none`) exactly on `Length`. -/
theorem c10_length_modifier_rendering :
    (∀ name : String,
      wordToString (Word.BracedVariable
        (BracedExpansion.mk name (some ExpansionModifier.Length))) =
        "$\x7b#" ++ name ++ "\x7d") ∧
    (∀ m : ExpansionModifier,
      ExpansionModifier.toStringPanics m = none ↔ m = ExpansionModifier.Length) := by
  constructor
  · intro name
    show "$\x7b" ++ ("#" ++ name) ++ "\x7d" = "$\x7b#" ++ name ++ "\x7d"
    rw [← String.append_assoc]
    rfl
  · intro m
    cases m <;> simp [ExpansionModifier.toStringPanics]

end Apml
